import Mathlib

/-!
Verification of `env_vars_struct` (src/lib.rs), a procedural macro that turns a
flat list of dotted environment-variable names into a namespace tree and emits,
for every internal node, a nested struct declaration together with an
initializer that reads each leaf from the environment.

The shallow embedding below mirrors the Rust source:

* `Node` embeds the Rust `Node` (lib.rs lines 69-73); the `HashMap<String,
  Node>` of children is modelled as an association list with unique keys (the
  list order models one iteration order of the map; claims about iteration
  order compare differently ordered association lists that represent the same
  map contents).
* `insert_path` embeds `insert_path` (lines 75-89); `build_tree` embeds the
  insertion loop of `env_vars_struct` (lines 53-56) including the `split('.')`
  call on line 54.
* `to_pascal_case` and `to_snake_case` embed lines 211-228.  The Rust code
  uses Unicode `to_uppercase`/`to_lowercase`; the embedding uses the ASCII
  `Char.toUpper`/`Char.toLower`, which agree on all inputs appearing in the
  claims.  `-` is not changed by lower-casing in either language.
* `generate_struct_fields`, `generate_field_inits`, `generate_structs` and
  `generate_root_struct` embed lines 91-209, producing the emitted schema as a
  list of `StructDecl` values (name, ordered fields, ordered initializers).
* `construct_node` embeds the runtime semantics of the generated `new()`
  functions (lines 113-119, 138-150, 188-204): for each child in order, a
  leaf performs the source lookup for its original dotted key and aborts with
  the panic message of line 194 when absent; an internal child recursively
  constructs the child struct.  The environment is a function
  `String → Option String`.
-/

/-! ## String splitting and identifier normalization (lib.rs lines 54, 211-228) -/

/-- Splitting a character list at every occurrence of `sep`, with the
semantics of Rust `str::split`: the empty input yields one empty segment,
and separators at the ends yield empty segments. -/
def splitOnChar (sep : Char) : List Char → List (List Char)
  | [] => [[]]
  | c :: cs =>
    if c = sep then [] :: splitOnChar sep cs
    else
      match splitOnChar sep cs with
      | [] => [[c]]
      | g :: gs => (c :: g) :: gs

/-- Embeds `var_name.split('.')` from lib.rs line 54. -/
def split_dots (s : String) : List String :=
  (splitOnChar ('.') s.data).map String.mk

/-- Inverse of `splitOnChar`: interleave the separator back.  Used to show
that splitting is injective. -/
def joinWithChar (sep : Char) : List (List Char) → List Char
  | [] => []
  | [g] => g
  | g :: gs => g ++ sep :: joinWithChar sep gs

/-- Embeds `to_snake_case` (lib.rs lines 226-228): lower-case, then replace
`-` by `_`.  Lower-casing never produces or removes a `-`, so the two passes
of the Rust code equal this single character map. -/
def to_snake_case (s : String) : String :=
  String.mk (s.data.map (fun c => if c = '-' then '_' else c.toLower))

/-- Embeds `to_pascal_case` (lib.rs lines 211-224): split on `_`, upper-case
the first character of each word, lower-case the rest, concatenate. -/
def to_pascal_case (s : String) : String :=
  String.join ((splitOnChar ('_') s.data).map (fun w =>
    match w with
    | [] => ""
    | c :: cs => String.mk (c.toUpper :: cs.map Char.toLower)))

/-! ## The namespace tree (lib.rs lines 69-89) -/

/-- Embeds the Rust `Node` (lib.rs lines 69-73).  `children` models the
`HashMap<String, Node>` as an association list with pairwise distinct keys. -/
inductive Node where
  | mk (children : List (String × Node)) (leaf_var : Option String)

def Node.children : Node → List (String × Node)
  | .mk c _ => c

def Node.leaf_var : Node → Option String
  | .mk _ v => v

/-- The `Node::default()` value: empty children, no bound key. -/
def emptyNode : Node := .mk [] none

/-- Map lookup on the association list of children (first matching key). -/
def find_child : List (String × Node) → String → Option Node
  | [], _ => none
  | (k, c) :: t, p => if k = p then some c else find_child t p

/-- Map update on the association list of children: replace the value at the
first occurrence of the key, or append a new entry.  This models
`HashMap::entry(..).or_default()` followed by writing the entry back. -/
def store_child : List (String × Node) → String → Node → List (String × Node)
  | [], p, v => [(p, v)]
  | (k, c) :: t, p, v => if k = p then (k, v) :: t else (k, c) :: store_child t p v

/-- Embeds `insert_path` (lib.rs lines 75-89): an empty segment list is a
no-op; at the last segment the node's `leaf_var` is overwritten with the full
variable name; otherwise the walk recurses into the child for the first
segment, creating it with `or_default` when absent. -/
def insert_path : Node → List String → String → Node
  | node, [], _ => node
  | node, p :: rest, full_var =>
    let old := (find_child node.children p).getD emptyNode
    let updated :=
      match rest with
      | [] => Node.mk old.children (some full_var)
      | _ :: _ => insert_path old rest full_var
    Node.mk (store_child node.children p updated) node.leaf_var

/-- Embeds the tree-building loop of `env_vars_struct` (lib.rs lines 51-56):
fold the input variable list into a tree, splitting each name on `.`. -/
def build_tree (vars : List String) : Node :=
  vars.foldl (fun t v => insert_path t (split_dots v) v) emptyNode

/-! ## Observations on trees -/

/-- Walk a raw-segment address down the tree. -/
def find_path : Node → List String → Option Node
  | n, [] => some n
  | n, p :: rest =>
    match find_child n.children p with
    | none => none
    | some c => find_path c rest

/-- Whether a raw-segment address denotes a node of the tree. -/
def has_path (n : Node) (q : List String) : Bool :=
  (find_path n q).isSome

/-- The bound key (`leaf_var`) of the node at a raw-segment address, when the
address denotes a node. -/
def leaf_at (n : Node) (q : List String) : Option String :=
  (find_path n q).bind Node.leaf_var

/-! ## The emitted schema (lib.rs lines 45, 91-209) -/

/-- Embeds `ROOT_STRUCT_NAME` (lib.rs line 45). -/
def ROOT_STRUCT_NAME : String := "Vars"

/-- The type of one emitted field: a plain `String` leaf, or a reference to a
generated child struct type. -/
inductive FieldTy where
  | leafF
  | nestedF (tyName : String)
deriving DecidableEq, Repr

/-- One emitted initializer action: an environment lookup for the original
dotted key, or a call to the child struct's `new()`. -/
inductive InitTy where
  | lookupVar (key : String)
  | constructTy (tyName : String)
deriving DecidableEq, Repr

/-- One emitted struct declaration: its type name, its ordered field list and
the ordered initializer list of its `new()` function. -/
structure StructDecl where
  name : String
  fields : List (String × FieldTy)
  inits : List (String × InitTy)
deriving DecidableEq, Repr

/-- The loop body of `generate_struct_fields` (lib.rs lines 157-176) over the
child list: a child is a leaf field exactly when it has a bound key and no
children; otherwise it is typed as the generated child struct. -/
def struct_fields_list : List (String × Node) → String → List (String × FieldTy)
  | [], _ => []
  | (k, c) :: t, parent =>
    (to_snake_case k,
      match c.leaf_var, c.children with
      | some _, [] => FieldTy.leafF
      | _, _ => FieldTy.nestedF (parent ++ to_pascal_case k)) :: struct_fields_list t parent

/-- Embeds `generate_struct_fields` (lib.rs lines 154-179). -/
def generate_struct_fields (n : Node) (parent : String) : List (String × FieldTy) :=
  struct_fields_list n.children parent

/-- The loop body of `generate_field_inits` (lib.rs lines 184-206) over the
child list: a leaf child's field is initialized by an environment lookup for
its bound key, any other child by the child struct's `new()`. -/
def field_inits_list : List (String × Node) → String → List (String × InitTy)
  | [], _ => []
  | (k, c) :: t, parent =>
    (to_snake_case k,
      match c.leaf_var, c.children with
      | some v, [] => InitTy.lookupVar v
      | _, _ => InitTy.constructTy (parent ++ to_pascal_case k)) :: field_inits_list t parent

/-- Embeds `generate_field_inits` (lib.rs lines 181-209). -/
def generate_field_inits (n : Node) (parent : String) : List (String × InitTy) :=
  field_inits_list n.children parent

mutual

/-- Embeds `generate_structs` (lib.rs lines 91-125): for every child that is
not a pure leaf (`leaf_var.is_none() || !children.is_empty()`), first emit the
declarations of its own subtree, then its declaration, named by appending the
Pascal fragment of the child's raw key to the parent struct name. -/
def generate_structs : Node → String → List StructDecl
  | .mk cs _, struct_name => structs_list cs struct_name

/-- The loop of `generate_structs` over the child list. -/
def structs_list : List (String × Node) → String → List StructDecl
  | [], _ => []
  | (k, c) :: t, struct_name =>
    (match c.leaf_var, c.children with
     | some _, [] => []
     | _, _ =>
       generate_structs c (struct_name ++ to_pascal_case k) ++
         [{ name := struct_name ++ to_pascal_case k
            fields := generate_struct_fields c (struct_name ++ to_pascal_case k)
            inits := generate_field_inits c (struct_name ++ to_pascal_case k) }]) ++
      structs_list t struct_name

end

/-- Embeds `generate_root_struct` (lib.rs lines 127-152): the root struct is
named `Vars` and carries the root node's fields and initializers. -/
def generate_root_struct (n : Node) : StructDecl :=
  { name := ROOT_STRUCT_NAME
    fields := generate_struct_fields n ROOT_STRUCT_NAME
    inits := generate_field_inits n ROOT_STRUCT_NAME }

/-- The full emitted output of the macro (lib.rs lines 58-64): all nested
struct declarations followed by the root struct. -/
def emit_all (n : Node) : List StructDecl :=
  generate_structs n ROOT_STRUCT_NAME ++ [generate_root_struct n]

/-! ## Runtime semantics of the generated initializers -/

/-- A constructed runtime value: a leaf `String` or a nested struct value
with its ordered fields. -/
inductive Val where
  | str (s : String)
  | obj (fields : List (String × Val))

/-- The panic message of lib.rs line 194. -/
def err_msg (v : String) : String :=
  "Environment variable " ++ v ++ " not found"

mutual

/-- Runs the generated `new()` of the struct for `n` against the environment
`src`: evaluate the initializers of `generate_field_inits` in order
(lib.rs lines 188-204), aborting with the panic message of line 194 at the
first leaf whose lookup is absent. -/
def construct_node (src : String → Option String) : Node → Except String Val
  | .mk cs _ => (construct_children src cs).map Val.obj

/-- Field-by-field evaluation of the generated initializer list. -/
def construct_children (src : String → Option String) :
    List (String × Node) → Except String (List (String × Val))
  | [] => .ok []
  | (k, c) :: t =>
    match c.leaf_var, c.children with
    | some v, [] =>
      match src v with
      | some x =>
        (construct_children src t).map (fun rest => (to_snake_case k, Val.str x) :: rest)
      | none => .error (err_msg v)
    | _, _ =>
      match construct_node src c with
      | .ok cv => (construct_children src t).map (fun rest => (to_snake_case k, cv) :: rest)
      | .error e => .error e

end

mutual

/-- The original dotted keys looked up by the generated initializers, in
evaluation order: one per child with a bound key and no children, recursing
into every other child. -/
def leaf_keys : Node → List String
  | .mk cs _ => leaf_keys_list cs

/-- The lookup keys contributed by a child list, in order. -/
def leaf_keys_list : List (String × Node) → List String
  | [] => []
  | (_, c) :: t =>
    (match c.leaf_var, c.children with
     | some v, [] => [v]
     | _, _ => leaf_keys c) ++ leaf_keys_list t

end

mutual

/-- The fully populated value of the struct for `n` when every leaf lookup
succeeds: leaves hold the looked-up text, nested fields the child's value. -/
def mk_val (src : String → Option String) : Node → Val
  | .mk cs _ => .obj (mk_val_list src cs)

/-- The fields of the fully populated value, in order. -/
def mk_val_list (src : String → Option String) : List (String × Node) → List (String × Val)
  | [] => []
  | (k, c) :: t =>
    (to_snake_case k,
      match c.leaf_var, c.children with
      | some v, [] => Val.str ((src v).getD (""))
      | _, _ => mk_val src c) :: mk_val_list src t

end

/-- First field of a constructed struct value with the given field name. -/
def find_field : List (String × Val) → String → Option Val
  | [], _ => none
  | (n, v) :: t, f => if n = f then some v else find_field t f

/-- Follow a list of field names through a constructed value. -/
def get_path : Val → List String → Option Val
  | v, [] => some v
  | .str _, _ :: _ => none
  | .obj fs, f :: rest =>
    match find_field fs f with
    | none => none
    | some v => get_path v rest

/-- Along the raw-segment address `q`, every visited node's children have
snake-case identifiers that collide with the next segment's identifier only
at the next segment itself.  This is the no-field-collision side condition of
spec section 4.3. -/
def uniq_snake : Node → List String → Bool
  | _, [] => true
  | n, k :: rest =>
    n.children.all (fun kc => decide (to_snake_case kc.1 = to_snake_case k → kc.1 = k)) &&
      (match find_child n.children k with
       | none => true
       | some c => uniq_snake c rest)

/-- The struct name the emitter derives for the node at a raw-segment
address: fold the Pascal fragment of each segment onto the root name. -/
def struct_name_at (base : String) (segs : List String) : String :=
  segs.foldl (fun acc s => acc ++ to_pascal_case s) base

/-! ## Basic lemmas about the tree operations -/

@[simp]
theorem Node.children_mk (cs : List (String × Node)) (lv : Option String) :
    (Node.mk cs lv).children = cs := rfl

@[simp]
theorem Node.leaf_var_mk (cs : List (String × Node)) (lv : Option String) :
    (Node.mk cs lv).leaf_var = lv := rfl

theorem find_store (cs : List (String × Node)) (p : String) (v : Node) (x : String) :
    find_child (store_child cs p v) x = if x = p then some v else find_child cs x := by
  induction cs with
  | nil =>
    by_cases hxp : x = p <;> simp [store_child, find_child, hxp]
    intro h
    exact absurd h.symm hxp
  | cons hd t ih =>
    obtain ⟨k, c⟩ := hd
    simp only [store_child]
    by_cases hkp : k = p
    · simp only [if_pos hkp, find_child]
      by_cases hkx : k = x
      · have hxp : x = p := hkx.symm.trans hkp
        simp [hkx, hxp]
      · have hxp : ¬ x = p := fun h => hkx (hkp.trans h.symm)
        simp [hkx, hxp]
    · simp only [if_neg hkp, find_child]
      by_cases hkx : k = x
      · have hxp : ¬ x = p := fun h => hkp (hkx.trans h)
        simp [hkx, hxp]
      · simp [hkx, ih]

theorem insert_path_eq (cs : List (String × Node)) (lv : Option String) (p : String)
    (rest : List String) (full : String) :
    insert_path (Node.mk cs lv) (p :: rest) full =
      Node.mk (store_child cs p
        (match rest with
         | [] => Node.mk ((find_child cs p).getD emptyNode).children (some full)
         | _ :: _ => insert_path ((find_child cs p).getD emptyNode) rest full)) lv := rfl

@[simp]
theorem leaf_at_nil (n : Node) : leaf_at n [] = n.leaf_var := rfl

theorem leaf_at_cons (n : Node) (x : String) (q : List String) :
    leaf_at n (x :: q) =
      match find_child n.children x with
      | none => none
      | some c => leaf_at c q := by
  cases h : find_child n.children x <;> simp [leaf_at, find_path, h]

theorem leaf_at_empty (q : List String) : leaf_at emptyNode q = none := by
  cases q with
  | nil => rfl
  | cons x q' => rw [leaf_at_cons]; rfl

theorem find_path_cons (n : Node) (x : String) (q : List String) :
    find_path n (x :: q) =
      match find_child n.children x with
      | none => none
      | some c => find_path c q := rfl

/-- Frame property of the bound keys: inserting along `segs` leaves the bound
key of every node at an address other than `segs` itself unchanged. -/
theorem leaf_at_insert_ne :
    ∀ (segs : List String) (t : Node) (full : String) (q : List String),
      q ≠ segs → leaf_at (insert_path t segs full) q = leaf_at t q := by
  intro segs
  induction segs with
  | nil => intro t full q _; rfl
  | cons p rest ih =>
    intro t full q hq
    obtain ⟨cs, lv⟩ := t
    rw [insert_path_eq]
    cases q with
    | nil => simp
    | cons x q' =>
      rw [leaf_at_cons, leaf_at_cons]
      simp only [Node.children_mk]
      rw [find_store]
      by_cases hxp : x = p
      · rw [if_pos hxp]
        subst hxp
        have hq' : q' ≠ rest := fun h => hq (by rw [h])
        cases rest with
        | nil =>
          cases q' with
          | nil => exact absurd rfl hq'
          | cons y q2 =>
            cases hfc : find_child cs x with
            | none => simp [hfc, leaf_at_cons, emptyNode, find_child]
            | some c => simp [hfc, leaf_at_cons]
        | cons r rest' =>
          cases hfc : find_child cs x with
          | none =>
            simp only [hfc, Option.getD_none]
            exact (ih emptyNode full q' hq').trans (leaf_at_empty q')
          | some c =>
            simp only [hfc, Option.getD_some]
            exact ih c full q' hq'
      · rw [if_neg hxp]

/-- After inserting along a non-empty `segs`, the node at `segs` carries the
just-written bound key, regardless of what was there before. -/
theorem leaf_at_insert_self :
    ∀ (segs : List String) (t : Node) (full : String),
      segs ≠ [] → leaf_at (insert_path t segs full) segs = some full := by
  intro segs
  induction segs with
  | nil => intro t full h; exact absurd rfl h
  | cons p rest ih =>
    intro t full _
    obtain ⟨cs, lv⟩ := t
    rw [insert_path_eq, leaf_at_cons]
    simp only [Node.children_mk]
    rw [find_store, if_pos rfl]
    cases rest with
    | nil => rfl
    | cons r rest' => exact ih _ full (by simp)

/-- Frame property of the subtrees: inserting along `segs` leaves the node at
every address that is not a prefix of `segs` exactly unchanged. -/
theorem find_path_insert_off :
    ∀ (segs : List String) (t : Node) (full : String) (q : List String),
      ¬ q <+: segs → find_path (insert_path t segs full) q = find_path t q := by
  intro segs
  induction segs with
  | nil => intro t full q _; rfl
  | cons p rest ih =>
    intro t full q hq
    obtain ⟨cs, lv⟩ := t
    rw [insert_path_eq]
    cases q with
    | nil => exact absurd (List.nil_prefix) hq
    | cons x q' =>
      rw [find_path_cons, find_path_cons]
      simp only [Node.children_mk]
      rw [find_store]
      by_cases hxp : x = p
      · rw [if_pos hxp]
        subst hxp
        have hq' : ¬ q' <+: rest := fun h => hq ((List.prefix_cons_inj _).mpr h)
        cases rest with
        | nil =>
          have hq'' : q' ≠ [] := fun h => hq' (h ▸ List.nil_prefix)
          cases q' with
          | nil => exact absurd rfl hq''
          | cons y q2 =>
            cases hfc : find_child cs x with
            | none => simp [hfc, find_path_cons, emptyNode, find_child]
            | some c => simp [hfc, find_path_cons]
        | cons r rest' =>
          cases hfc : find_child cs x with
          | none =>
            simp only [hfc, Option.getD_none]
            rw [ih emptyNode full q' hq']
            have hq'' : q' ≠ [] := fun h => hq' (h ▸ List.nil_prefix)
            cases q' with
            | nil => exact absurd rfl hq''
            | cons y q2 => rfl
          | some c =>
            simp only [hfc, Option.getD_some]
            exact ih c full q' hq'
      · rw [if_neg hxp]

/-- Every prefix of the inserted address denotes a node after the insertion
(the insertion creates the chain it walks). -/
theorem has_path_insert_self :
    ∀ (segs : List String) (t : Node) (full : String) (q : List String),
      q <+: segs → has_path (insert_path t segs full) q = true := by
  intro segs
  induction segs with
  | nil =>
    intro t full q hq
    rw [List.prefix_nil.mp hq]
    rfl
  | cons p rest ih =>
    intro t full q hq
    obtain ⟨cs, lv⟩ := t
    rw [insert_path_eq]
    cases q with
    | nil => rfl
    | cons x q' =>
      obtain ⟨hxp, hq'⟩ := List.cons_prefix_cons.mp hq
      subst hxp
      simp only [has_path, find_path_cons, Node.children_mk]
      rw [find_store, if_pos rfl]
      cases rest with
      | nil =>
        rw [List.prefix_nil.mp hq']
        rfl
      | cons r rest' => exact ih _ full q' hq'

/-! ## Splitting lemmas -/

theorem splitOnChar_ne_nil (sep : Char) (cs : List Char) : splitOnChar sep cs ≠ [] := by
  cases cs with
  | nil => simp [splitOnChar]
  | cons c cs' =>
    simp only [splitOnChar]
    by_cases h : c = sep
    · simp [h]
    · simp only [if_neg h]
      cases hs : splitOnChar sep cs' <;> simp

theorem split_dots_ne_nil (s : String) : split_dots s ≠ [] := by
  simp only [split_dots, ne_eq, List.map_eq_nil_iff]
  exact splitOnChar_ne_nil _ _

theorem joinWithChar_splitOnChar (sep : Char) (cs : List Char) :
    joinWithChar sep (splitOnChar sep cs) = cs := by
  induction cs with
  | nil => rfl
  | cons c cs' ih =>
    simp only [splitOnChar]
    by_cases h : c = sep
    · rw [if_pos h]
      cases hs : splitOnChar sep cs' with
      | nil => exact absurd hs (splitOnChar_ne_nil sep cs')
      | cons g gs =>
        rw [hs] at ih
        simp [joinWithChar, ih, h]
    · rw [if_neg h]
      cases hs : splitOnChar sep cs' with
      | nil => exact absurd hs (splitOnChar_ne_nil sep cs')
      | cons g gs =>
        rw [hs] at ih
        cases gs with
        | nil => simp_all [joinWithChar]
        | cons g2 gs2 => simp_all [joinWithChar]

/-- Splitting on `.` is injective: two distinct input strings always produce
distinct raw segment sequences. -/
theorem split_dots_injective {s1 s2 : String} (h : split_dots s1 = split_dots s2) :
    s1 = s2 := by
  have hmk : Function.Injective String.mk := fun a b hab => by injection hab
  have h2 : splitOnChar ('.') s1.data = splitOnChar ('.') s2.data :=
    List.map_injective_iff.mpr hmk h
  have h3 := congrArg (joinWithChar ('.')) h2
  rw [joinWithChar_splitOnChar, joinWithChar_splitOnChar] at h3
  cases s1
  cases s2
  exact congrArg String.mk (by simpa using h3)

/-! ## Characterization of the built tree -/

theorem has_path_insert (t : Node) (segs : List String) (full : String) (q : List String) :
    has_path (insert_path t segs full) q = true ↔
      (has_path t q = true ∨ q <+: segs) := by
  by_cases hpre : q <+: segs
  · simp [hpre, has_path_insert_self segs t full q hpre]
  · simp [has_path, find_path_insert_off segs t full q hpre, hpre]

theorem has_path_empty_iff (q : List String) : has_path emptyNode q = true ↔ q = [] := by
  cases q <;> simp [has_path, find_path, emptyNode, find_child]

theorem has_path_foldl (q : List String) (l : List String) (t : Node) :
    has_path (List.foldl (fun t v => insert_path t (split_dots v) v) t l) q = true ↔
      has_path t q = true ∨ ∃ s ∈ l, q <+: split_dots s := by
  induction l generalizing t with
  | nil => simp
  | cons s l' ih =>
    rw [List.foldl_cons, ih]
    rw [has_path_insert]
    simp only [List.mem_cons]
    constructor
    · rintro ((h | h) | ⟨x, hx, hp⟩)
      · exact Or.inl h
      · exact Or.inr ⟨s, Or.inl rfl, h⟩
      · exact Or.inr ⟨x, Or.inr hx, hp⟩
    · rintro (h | ⟨x, (rfl | hx), hp⟩)
      · exact Or.inl (Or.inl h)
      · exact Or.inl (Or.inr hp)
      · exact Or.inr ⟨x, hx, hp⟩

/-- A raw-segment address denotes a node of the built tree exactly when it is
the root or a non-trivial prefix of the split of some input entry. -/
theorem has_path_build (l : List String) (q : List String) :
    has_path (build_tree l) q = true ↔ q = [] ∨ ∃ s ∈ l, q <+: split_dots s := by
  unfold build_tree
  rw [has_path_foldl, has_path_empty_iff]

theorem leaf_at_foldl (q : List String) (l : List String) (t : Node) :
    leaf_at (List.foldl (fun t v => insert_path t (split_dots v) v) t l) q =
      (l.reverse.find? (fun s => decide (split_dots s = q))).or (leaf_at t q) := by
  induction l generalizing t with
  | nil => simp
  | cons s l' ih =>
    rw [List.foldl_cons, ih]
    rw [List.reverse_cons, List.find?_append, Option.or_assoc]
    congr 1
    by_cases hsq : split_dots s = q
    · rw [List.find?_cons_of_pos _ (by simp [hsq])]
      rw [show (some s).or (leaf_at t q) = some s from rfl]
      rw [← hsq]
      exact leaf_at_insert_self _ t s (split_dots_ne_nil s)
    · rw [List.find?_cons_of_neg _ (by simp [hsq])]
      rw [show (List.find? (fun s => decide (split_dots s = q)) []).or (leaf_at t q) =
        leaf_at t q from rfl]
      exact leaf_at_insert_ne _ t s q (fun h => hsq h.symm)

/-- The bound key at an address of the built tree is the last input entry
whose split equals that address. -/
theorem leaf_at_build (l : List String) (q : List String) :
    leaf_at (build_tree l) q =
      l.reverse.find? (fun s => decide (split_dots s = q)) := by
  unfold build_tree
  rw [leaf_at_foldl, leaf_at_empty, Option.or_none]

/-- When at most one element satisfies the predicate, `find?` is invariant
under permutation. -/
theorem find?_perm_unique {α : Type} {l l' : List α} (p : α → Bool) (h : l.Perm l')
    (huniq : ∀ x ∈ l, ∀ y ∈ l, p x = true → p y = true → x = y) :
    l.find? p = l'.find? p := by
  cases h1 : l.find? p with
  | none =>
    rw [List.find?_eq_none] at h1
    cases h2 : l'.find? p with
    | none => rfl
    | some y =>
      have hy := List.find?_some h2
      have hmem := h.symm.subset (List.mem_of_find?_eq_some h2)
      exact absurd hy (h1 y hmem)
  | some x =>
    have hx := List.find?_some h1
    have hxm := List.mem_of_find?_eq_some h1
    cases h2 : l'.find? p with
    | none =>
      rw [List.find?_eq_none] at h2
      exact absurd hx (h2 x (h.subset hxm))
    | some y =>
      have hy := List.find?_some h2
      have hym := h.symm.subset (List.mem_of_find?_eq_some h2)
      rw [huniq x hxm y hym hx hy]

/-- Building the tree from a permuted input list with pairwise distinct raw
segment sequences yields an extensionally equal tree: the same addresses
denote nodes, and every address carries the same bound key. -/
theorem build_tree_ext_perm {l l' : List String} (hperm : l.Perm l')
    (hnd : (l.map split_dots).Nodup) (q : List String) :
    has_path (build_tree l) q = has_path (build_tree l') q ∧
      leaf_at (build_tree l) q = leaf_at (build_tree l') q := by
  constructor
  · apply Bool.coe_iff_coe.mp
    rw [has_path_build, has_path_build]
    constructor
    · rintro (h | ⟨s, hs, hp⟩)
      · exact Or.inl h
      · exact Or.inr ⟨s, hperm.subset hs, hp⟩
    · rintro (h | ⟨s, hs, hp⟩)
      · exact Or.inl h
      · exact Or.inr ⟨s, hperm.symm.subset hs, hp⟩
  · rw [leaf_at_build, leaf_at_build]
    apply find?_perm_unique
    · exact ((List.reverse_perm l).trans hperm).trans (List.reverse_perm l').symm
    · intro x hx y hy hpx hpy
      rw [List.mem_reverse] at hx hy
      have hsx : split_dots x = q := of_decide_eq_true hpx
      have hsy : split_dots y = q := of_decide_eq_true hpy
      exact List.inj_on_of_nodup_map hnd hx hy (hsx.trans hsy.symm)

/-! ## Claims -/

/-- C5: Last-write-wins on duplicates.  If the identical raw segment sequence
is inserted twice (lib.rs lines 80-84 overwrite `leaf_var` through the map
entry), the node at the end of the sequence carries the bound key written by
the later insertion; the earlier binding is silently overwritten and no error
is reported (insertion is total). -/
theorem claim_C5_last_write_wins (t : Node) (segs : List String) (f1 f2 : String)
    (hne : segs ≠ []) :
    leaf_at (insert_path t segs f1) segs = some f1 ∧
      leaf_at (insert_path (insert_path t segs f1) segs f2) segs = some f2 := by
  exact ⟨leaf_at_insert_self segs t f1 hne,
    leaf_at_insert_self segs (insert_path t segs f1) f2 hne⟩

theorem claim_C5_witness :
    (["A"] : List String) ≠ [] ∧
      leaf_at (insert_path emptyNode ["A"] ("X")) ["A"] = some ("X") ∧
        leaf_at (insert_path (insert_path emptyNode ["A"] ("X")) ["A"] ("Y")) ["A"] =
          some ("Y") := by
  refine ⟨by simp, ?_, ?_⟩
  · exact (claim_C5_last_write_wins emptyNode ["A"] ("X") ("Y") (by simp)).1
  · exact (claim_C5_last_write_wins emptyNode ["A"] ("X") ("Y") (by simp)).2

/-- C9: Frame property of insertion.  Inserting a non-empty segment sequence
changes no subtree at an address that is not a prefix of the sequence, and
changes no bound key at any address other than the final node's address (so
in particular the bound keys of the nodes strictly inside the walked chain
are unchanged). -/
theorem claim_C9_insert_frame (t : Node) (segs : List String) (full : String)
    (q : List String) (_hne : segs ≠ []) :
    (¬ q <+: segs → find_path (insert_path t segs full) q = find_path t q) ∧
      (q ≠ segs → leaf_at (insert_path t segs full) q = leaf_at t q) := by
  constructor
  · intro hq
    exact find_path_insert_off segs t full q hq
  · intro hq
    exact leaf_at_insert_ne segs t full q hq

theorem claim_C9_witness :
    find_path (insert_path (build_tree ["A.B"]) ["A", "C"] ("A.C")) ["A", "B"] =
        find_path (build_tree ["A.B"]) ["A", "B"] ∧
      leaf_at (insert_path (build_tree ["A.B"]) ["A", "C"] ("A.C")) ["A"] =
        leaf_at (build_tree ["A.B"]) ["A"] := by
  constructor
  · exact (claim_C9_insert_frame (build_tree ["A.B"]) ["A", "C"] ("A.C") ["A", "B"]
      (by simp)).1 (by decide)
  · exact (claim_C9_insert_frame (build_tree ["A.B"]) ["A", "C"] ("A.C") ["A"]
      (by simp)).2 (by decide)

/-- C10: Order-independence of tree construction.  For input lists whose
entries split into pairwise distinct raw segment sequences (which forbids
repeated path strings), building from any permutation yields the same tree
extensionally: the same addresses denote nodes (hence the same child-key set
at every node) and every address carries the same bound key. -/
theorem claim_C10_order_independence (l l' : List String) (q : List String)
    (hperm : l.Perm l') (hnd : (l.map split_dots).Nodup) :
    has_path (build_tree l) q = has_path (build_tree l') q ∧
      leaf_at (build_tree l) q = leaf_at (build_tree l') q :=
  build_tree_ext_perm hperm hnd q

theorem claim_C10_witness :
    (has_path (build_tree ["A", "B.C"]) ["B"] = has_path (build_tree ["B.C", "A"]) ["B"]) ∧
      (leaf_at (build_tree ["A", "B.C"]) ["A"] = leaf_at (build_tree ["B.C", "A"]) ["A"]) := by
  constructor
  · exact (claim_C10_order_independence ["A", "B.C"] ["B.C", "A"] ["B"]
      (by decide) (by decide)).1
  · exact (claim_C10_order_independence ["A", "B.C"] ["B.C", "A"] ["A"]
      (by decide) (by decide)).2

theorem struct_fields_list_map (cs : List (String × Node)) (parent : String) :
    struct_fields_list cs parent = cs.map (fun kc =>
      (to_snake_case kc.1,
        match kc.2.leaf_var, kc.2.children with
        | some _, [] => FieldTy.leafF
        | _, _ => FieldTy.nestedF (parent ++ to_pascal_case kc.1))) := by
  induction cs with
  | nil => rfl
  | cons hd t ih => obtain ⟨k, c⟩ := hd; simp [struct_fields_list, ih]

theorem field_inits_list_map (cs : List (String × Node)) (parent : String) :
    field_inits_list cs parent = cs.map (fun kc =>
      (to_snake_case kc.1,
        match kc.2.leaf_var, kc.2.children with
        | some v, [] => InitTy.lookupVar v
        | _, _ => InitTy.constructTy (parent ++ to_pascal_case kc.1))) := by
  induction cs with
  | nil => rfl
  | cons hd t ih => obtain ⟨k, c⟩ := hd; simp [field_inits_list, ih]

/-- C1: Leaf-vs-nested classification.  A child is emitted as a leaf field
exactly when it has a bound key and no children; every other child is emitted
as a nested field referencing the generated child record, and its initializer
is the child's constructor, so a bound key on a node with children is
discarded.  For input `["A", "A.B"]` the schema for `A` is a nested record
containing field `b`, and no leaf binding for the bare key `"A"` appears
anywhere in the emitted output. -/
theorem claim_C1_classification :
    (∀ (n : Node) (p : String), generate_struct_fields n p = n.children.map (fun kc =>
      (to_snake_case kc.1,
        match kc.2.leaf_var, kc.2.children with
        | some _, [] => FieldTy.leafF
        | _, _ => FieldTy.nestedF (p ++ to_pascal_case kc.1)))) ∧
    (∀ (n : Node) (p : String), generate_field_inits n p = n.children.map (fun kc =>
      (to_snake_case kc.1,
        match kc.2.leaf_var, kc.2.children with
        | some v, [] => InitTy.lookupVar v
        | _, _ => InitTy.constructTy (p ++ to_pascal_case kc.1)))) ∧
    emit_all (build_tree ["A", "A.B"]) =
      [⟨"VarsA", [("b", FieldTy.leafF)], [("b", InitTy.lookupVar ("A.B"))]⟩,
       ⟨"Vars", [("a", FieldTy.nestedF ("VarsA"))], [("a", InitTy.constructTy ("VarsA"))]⟩] ∧
    ((emit_all (build_tree ["A", "A.B"])).all (fun d =>
      d.inits.all (fun i => decide (i.2 ≠ InitTy.lookupVar ("A"))))) = true := by
  refine ⟨?_, ?_, rfl, rfl⟩
  · intro n p
    exact struct_fields_list_map n.children p
  · intro n p
    exact field_inits_list_map n.children p

/-- C3: The emitted field order depends on the iteration order of the
`HashMap` of children.  The trees built from `["B.X", "A.Y"]` and from
`["A.Y", "B.X"]` hold the same map contents (extensionally equal: same
addresses, same bound keys) and model two iteration orders of that map; the
emitter produces the root fields in the two different orders `[b, a]` and
`[a, b]`, so the emitted schema is not a function of the map contents, and
two runs of the unsorted `HashMap` iteration may differ. -/
theorem claim_C3_order_dependent_emission :
    (∀ q : List String,
      has_path (build_tree ["B.X", "A.Y"]) q = has_path (build_tree ["A.Y", "B.X"]) q ∧
        leaf_at (build_tree ["B.X", "A.Y"]) q = leaf_at (build_tree ["A.Y", "B.X"]) q) ∧
    (generate_struct_fields (build_tree ["B.X", "A.Y"]) ROOT_STRUCT_NAME).map Prod.fst =
      ["b", "a"] ∧
    (generate_struct_fields (build_tree ["A.Y", "B.X"]) ROOT_STRUCT_NAME).map Prod.fst =
      ["a", "b"] ∧
    emit_all (build_tree ["B.X", "A.Y"]) ≠ emit_all (build_tree ["A.Y", "B.X"]) := by
  refine ⟨?_, rfl, rfl, by decide⟩
  intro q
  exact build_tree_ext_perm (by decide) (by decide) q

/-- C6 counterexample: the type-name fragment of segment `REDIS-URL` is not
`"RedisUrl"`: `to_pascal_case` splits on `_` only, so the `-` survives into
the fragment (which is `"Redis-url"`). -/
theorem claim_C6_counterexample :
    to_pascal_case ("REDIS-URL") ≠ "RedisUrl" := by decide

/-- C6 amended: input `"CACHE.REDIS-URL"` yields field identifiers `cache`
and `redis_url` (lower-cased with `-` replaced by `_`), so the value is
reached at field path `root.cache.redis_url`; but the type-name fragment
derived from segment `REDIS-URL` is `"Redis-url"`, because the stated rule
splits on `_` only and the `-` is merely lower-cased in place (the generated
nested type for this input is `VarsCache`; no fragment of `REDIS-URL` is
emitted since that node is a leaf). -/
theorem claim_C6_normalization :
    to_snake_case ("CACHE") = "cache" ∧
    to_snake_case ("REDIS-URL") = "redis_url" ∧
    to_pascal_case ("REDIS-URL") = "Redis-url" ∧
    construct_node (fun k => some k) (build_tree ["CACHE.REDIS-URL"]) =
      .ok (.obj [("cache", .obj [("redis_url", .str ("CACHE.REDIS-URL"))])]) ∧
    (emit_all (build_tree ["CACHE.REDIS-URL"])).map StructDecl.name =
      ["VarsCache", "Vars"] :=
  ⟨rfl, rfl, rfl, rfl, rfl⟩

/-- C7 counterexample: the empty path string is not ignored.  `split('.')`
on `""` yields the single empty segment `[""]`, so building from `[""]`
inserts a child (with empty raw key) and emits a leaf field, unlike building
from the empty list. -/
theorem claim_C7_counterexample :
    (build_tree [""]).children.length = 1 ∧
    (build_tree ([] : List String)).children.length = 0 ∧
    generate_struct_fields (build_tree [""]) ROOT_STRUCT_NAME ≠
      generate_struct_fields (build_tree ([] : List String)) ROOT_STRUCT_NAME := by
  refine ⟨rfl, rfl, by decide⟩

/-- C7 amended: an empty path string splits into the single empty segment,
so processing it inserts a node with raw key `""` bound to the full name
`""` and contributes a leaf field with empty identifier to the schema; only
an empty segment list is a no-op for `insert_path`, and splitting never
produces one. -/
theorem claim_C7_empty_inserted :
    split_dots ("") = [""] ∧
    (∀ (t : Node) (f : String),
      leaf_at (insert_path t (split_dots ("")) f) (split_dots ("")) = some f) ∧
    generate_struct_fields (build_tree [""]) ROOT_STRUCT_NAME = [("", FieldTy.leafF)] ∧
    leaf_keys (build_tree [""]) = [""] := by
  refine ⟨rfl, ?_, rfl, rfl⟩
  intro t f
  exact leaf_at_insert_self _ t f (split_dots_ne_nil (""))

/-! ## Construction semantics lemmas -/

theorem Node.my_ind (P : Node → Prop)
    (h : ∀ l v, (∀ k c, (k, c) ∈ l → P c) → P (.mk l v)) : ∀ n, P n :=
  @Node.rec P (fun l => ∀ k c, (k, c) ∈ l → P c) (fun kc => P kc.2)
    (fun l v ih => h l v ih)
    (fun _ _ hc => absurd hc (List.not_mem_nil _))
    (fun hd tl hhd htl k c hc => by
      rcases List.mem_cons.mp hc with h1 | h2
      · rw [show c = hd.2 from congrArg Prod.snd h1]
        exact hhd
      · exact htl k c h2)
    (fun _ c pc => pc)

/-- The generated constructor either aborts with the panic message of the
first leaf key (in evaluation order) whose lookup is absent, or returns the
fully populated value. -/
theorem construct_children_eq (src : String → Option String) (cs : List (String × Node))
    (hIH : ∀ k c, (k, c) ∈ cs → construct_node src c =
      (match (leaf_keys c).find? (fun x => (src x).isNone) with
       | some k' => .error (err_msg k')
       | none => .ok (mk_val src c))) :
    construct_children src cs =
      (match (leaf_keys_list cs).find? (fun x => (src x).isNone) with
       | some k' => .error (err_msg k')
       | none => .ok (mk_val_list src cs)) := by
  induction cs with
  | nil => rfl
  | cons hd t ih =>
    obtain ⟨k, c⟩ := hd
    have hc := hIH k c (List.mem_cons_self _ _)
    have ht := ih (fun k' c' h => hIH k' c' (List.mem_cons_of_mem _ h))
    obtain ⟨ccs, clv⟩ := c
    cases clv with
    | some v =>
      cases ccs with
      | nil =>
        -- leaf child
        simp only [construct_children, leaf_keys_list, mk_val_list, Node.children_mk,
          Node.leaf_var_mk, List.singleton_append]
        cases hsv : src v with
        | none => rw [List.find?_cons_of_pos _ (by simp [hsv])]
        | some x =>
          rw [List.find?_cons_of_neg _ (by simp [hsv])]
          rw [ht]
          cases hf : (leaf_keys_list t).find? (fun x => (src x).isNone) <;>
            simp [Except.map, hsv, hf]
      | cons c2 cst =>
        -- bound key with children: nested
        simp only [construct_children, leaf_keys_list, mk_val_list, List.find?_append]
        rw [hc]
        simp only [leaf_keys]
        cases hf : (leaf_keys_list (c2 :: cst)).find? (fun x => (src x).isNone) with
        | some k' => simp [hf]
        | none =>
          simp only [Option.none_or]
          rw [ht]
          cases hf2 : (leaf_keys_list t).find? (fun x => (src x).isNone) <;>
            simp [Except.map, hf]
    | none =>
      cases ccs with
      | nil =>
        -- no bound key, no children: nested with empty body
        simp only [construct_children, leaf_keys_list, mk_val_list, List.find?_append]
        rw [hc]
        simp only [leaf_keys, leaf_keys_list, List.find?, List.nil_append]
        rw [ht]
        cases hf2 : (leaf_keys_list t).find? (fun x => (src x).isNone) <;>
          simp [Except.map, construct_children, mk_val_list]
      | cons c2 cst =>
        simp only [construct_children, leaf_keys_list, mk_val_list, List.find?_append]
        rw [hc]
        simp only [leaf_keys]
        cases hf : (leaf_keys_list (c2 :: cst)).find? (fun x => (src x).isNone) with
        | some k' => simp [hf]
        | none =>
          simp only [Option.none_or]
          rw [ht]
          cases hf2 : (leaf_keys_list t).find? (fun x => (src x).isNone) <;>
            simp [Except.map, hf]

theorem construct_node_eq (src : String → Option String) :
    ∀ n, construct_node src n =
      (match (leaf_keys n).find? (fun x => (src x).isNone) with
       | some k' => .error (err_msg k')
       | none => .ok (mk_val src n)) := by
  apply Node.my_ind
  intro l v ih
  have := construct_children_eq src l ih
  simp only [construct_node, leaf_keys, mk_val]
  rw [this]
  cases hf : (leaf_keys_list l).find? (fun x => (src x).isNone) <;> simp [Except.map]

/-- C2 (amended): constructing the root object aborts, with the panic message
naming the first leaf key in evaluation order whose lookup is absent, whenever
some leaf lookup is absent — so when exactly one leaf key is missing, the
error names exactly that original dotted key — and no partial object is
returned; when every leaf lookup succeeds, construction returns the fully
populated object. -/
theorem claim_C2_missing_leaf_fatal (src : String → Option String) (n : Node) :
    (∀ k', (leaf_keys n).find? (fun x => (src x).isNone) = some k' →
      construct_node src n = .error (err_msg k') ∧ src k' = none ∧ k' ∈ leaf_keys n) ∧
    ((∀ k ∈ leaf_keys n, (src k).isSome) →
      construct_node src n = .ok (mk_val src n)) ∧
    (∀ k ∈ leaf_keys n, src k = none →
      (∀ k2 ∈ leaf_keys n, k2 ≠ k → (src k2).isSome) →
      construct_node src n = .error (err_msg k)) := by
  refine ⟨?_, ?_, ?_⟩
  · intro k' hf
    refine ⟨?_, ?_, List.mem_of_find?_eq_some hf⟩
    · rw [construct_node_eq, hf]
    · have := List.find?_some hf
      exact Option.isNone_iff_eq_none.mp (by simpa using this)
  · intro hall
    have hf : (leaf_keys n).find? (fun x => (src x).isNone) = none := by
      rw [List.find?_eq_none]
      intro x hx
      simp [Option.isNone_iff_eq_none, Option.isSome_iff_ne_none.mp (hall x hx)]
    rw [construct_node_eq, hf]
  · intro k hk hnone hother
    cases hf : (leaf_keys n).find? (fun x => (src x).isNone) with
    | none =>
      have := List.find?_eq_none.mp hf k hk
      simp [Option.isNone, hnone] at this
    | some k' =>
      have hprop := List.find?_some hf
      have hmem := List.mem_of_find?_eq_some hf
      have hkk : k' = k := by
        by_contra hne
        have h1 := hother k' hmem hne
        have h2 : src k' = none := Option.isNone_iff_eq_none.mp (by simpa using hprop)
        rw [h2] at h1
        simp at h1
      rw [construct_node_eq, hf, hkk]

/-- C2 counterexample: with input `["A", "B"]` and a source that is absent
for every key, leaf `B`'s lookup is absent, yet construction aborts with the
message naming `A` (the first missing leaf in evaluation order), not `B` —
so the claim's requirement that the error name each absent leaf's own key
fails when more than one leaf is missing. -/
theorem claim_C2_counterexample :
    ("B") ∈ leaf_keys (build_tree ["A", "B"]) ∧
    (fun _ : String => (none : Option String)) ("B") = none ∧
    construct_node (fun _ => none) (build_tree ["A", "B"]) = .error (err_msg ("A")) ∧
    err_msg ("A") ≠ err_msg ("B") := by
  exact ⟨by decide, rfl, rfl, by decide⟩

theorem claim_C2_witness :
    construct_node (fun _ => none) (build_tree ["HAT"]) = .error (err_msg ("HAT")) :=
  (claim_C2_missing_leaf_fatal (fun _ => none) (build_tree ["HAT"])).2.2 ("HAT")
    (by decide) rfl (by decide)

/-! ## Round-trip lemmas -/

theorem find_field_mk_val (src : String → Option String) (cs : List (String × Node))
    (k : String) (c : Node)
    (huniq : ∀ kc ∈ cs, to_snake_case kc.1 = to_snake_case k → kc.1 = k)
    (hfc : find_child cs k = some c) :
    find_field (mk_val_list src cs) (to_snake_case k) =
      some (match c.leaf_var, c.children with
            | some v, [] => Val.str ((src v).getD (""))
            | _, _ => mk_val src c) := by
  induction cs with
  | nil => simp [find_child] at hfc
  | cons hd t ih =>
    obtain ⟨k', c'⟩ := hd
    by_cases hks : to_snake_case k' = to_snake_case k
    · have hk : k' = k := huniq (k', c') (List.mem_cons_self _ _) hks
      subst hk
      simp [find_child] at hfc
      subst hfc
      simp [mk_val_list, find_field, hks]
    · have hk : k' ≠ k := fun h => hks (congrArg to_snake_case h)
      rw [show find_child ((k', c') :: t) k = find_child t k from by
        simp [find_child, hk]] at hfc
      simp only [mk_val_list, find_field]
      rw [if_neg hks]
      exact ih (fun kc h hs => huniq kc (List.mem_cons_of_mem _ h) hs) hfc

theorem get_path_mk_val (src : String → Option String) :
    ∀ (q : List String) (k : String) (n m : Node) (w : String),
      find_path n (k :: q) = some m → m.children = [] → m.leaf_var = some w →
      uniq_snake n (k :: q) = true →
      get_path (mk_val src n) ((k :: q).map to_snake_case) =
        some (.str ((src w).getD (""))) := by
  intro q
  induction q with
  | nil =>
    intro k n m w hfp hch hlv huq
    obtain ⟨cs, lv⟩ := n
    rw [find_path_cons] at hfp
    simp only [Node.children_mk] at hfp
    simp only [uniq_snake, Node.children_mk, Bool.and_eq_true, List.all_eq_true] at huq
    cases hfc : find_child cs k with
    | none => rw [hfc] at hfp; simp at hfp
    | some c =>
      simp only [hfc] at hfp
      have hcm : c = m := by simpa [find_path] using hfp
      rw [← hcm] at hch hlv
      have huniq : ∀ kc ∈ cs, to_snake_case kc.1 = to_snake_case k → kc.1 = k :=
        fun kc h => of_decide_eq_true (huq.1 kc h)
      have F := find_field_mk_val src cs k c huniq hfc
      have F2 : find_field (mk_val_list src cs) (to_snake_case k) =
          some (Val.str ((src w).getD (""))) := by
        rw [F]
        obtain ⟨ccs, clv⟩ := c
        simp only [Node.children_mk] at hch
        simp only [Node.leaf_var_mk] at hlv
        subst hch
        subst hlv
        rfl
      simp only [mk_val, List.map_cons, List.map_nil, get_path]
      rw [F2]
  | cons y q' ih =>
    intro k n m w hfp hch hlv huq
    obtain ⟨cs, lv⟩ := n
    rw [find_path_cons] at hfp
    simp only [Node.children_mk] at hfp
    simp only [uniq_snake, Node.children_mk, Bool.and_eq_true, List.all_eq_true] at huq
    cases hfc : find_child cs k with
    | none => rw [hfc] at hfp; simp at hfp
    | some c =>
      simp only [hfc] at hfp
      simp only [hfc] at huq
      have huq2 : uniq_snake c (y :: q') = true := by
        simp only [uniq_snake]
        exact huq.2
      have huniq : ∀ kc ∈ cs, to_snake_case kc.1 = to_snake_case k → kc.1 = k :=
        fun kc h => of_decide_eq_true (huq.1 kc h)
      have F := find_field_mk_val src cs k c huniq hfc
      have hcne : c.children ≠ [] := by
        intro h
        rw [find_path_cons] at hfp
        simp only [show find_child c.children y = none from by rw [h]; rfl] at hfp
        exact Option.noConfusion hfp
      have Fc : find_field (mk_val_list src cs) (to_snake_case k) = some (mk_val src c) := by
        rw [F]
        obtain ⟨ccs, clv⟩ := c
        simp only [Node.children_mk] at hcne
        cases ccs with
        | nil => exact absurd rfl hcne
        | cons c2 cst => cases clv <;> rfl
      simp only [mk_val, List.map_cons, get_path]
      rw [Fc]
      exact ih y c m w hfp hch hlv huq2

/-- C4 counterexample: with input `["A", "A.B"]` and the identity-like
source, the constructed object has no field holding `"A"`: following the
normalized segment path of entry `"A"` (namely `[a]`) reaches the nested
record for `A`, not the string `"A"`, because the bound key of a node with
children is discarded. -/
theorem claim_C4_counterexample :
    ("A") ∈ (["A", "A.B"] : List String) ∧
    construct_node (fun k => some k) (build_tree ["A", "A.B"]) =
      .ok (.obj [("a", .obj [("b", .str ("A.B"))])]) ∧
    (split_dots ("A")).map to_snake_case = ["a"] ∧
    get_path (.obj [("a", .obj [("b", .str ("A.B"))])]) ["a"] =
      some (.obj [("b", .str ("A.B"))]) ∧
    get_path (.obj [("a", .obj [("b", .str ("A.B"))])]) ["a"] ≠ some (.str ("A")) := by
  refine ⟨by decide, rfl, rfl, rfl, ?_⟩
  intro h
  simp [get_path, find_field] at h

/-- C4 (amended): round-trip holds for every input entry whose node in the
final tree is childless (no other entry extends it) when the normalized
sibling identifiers along its path do not collide: with a source returning
each key itself, construction succeeds and the field reached by following
the normalized identifiers of the entry's segments holds exactly the
original path string. -/
theorem claim_C4_round_trip (l : List String) (s : String) (m : Node)
    (hs : s ∈ l)
    (hfp : find_path (build_tree l) (split_dots s) = some m)
    (hch : m.children = [])
    (huq : uniq_snake (build_tree l) (split_dots s) = true) :
    construct_node (fun k => some k) (build_tree l) =
      .ok (mk_val (fun k => some k) (build_tree l)) ∧
    get_path (mk_val (fun k => some k) (build_tree l))
      ((split_dots s).map to_snake_case) = some (.str s) := by
  constructor
  · have hf : (leaf_keys (build_tree l)).find?
        (fun x => ((fun k => some k) x).isNone) = none := by
      rw [List.find?_eq_none]
      intro x _
      simp
    rw [construct_node_eq, hf]
  · have hlv : m.leaf_var = some s := by
      have h1 : leaf_at (build_tree l) (split_dots s) = m.leaf_var := by
        simp [leaf_at, hfp]
      rw [leaf_at_build] at h1
      cases hfind : l.reverse.find? (fun x => decide (split_dots x = split_dots s)) with
      | none =>
        rw [List.find?_eq_none] at hfind
        exact absurd (by simp) (hfind s (List.mem_reverse.mpr hs))
      | some x =>
        have hpx := List.find?_some hfind
        have hx : split_dots x = split_dots s := by simpa using hpx
        have hxs : x = s := split_dots_injective hx
        rw [hfind, hxs] at h1
        exact h1.symm
    cases hsp : split_dots s with
    | nil => exact absurd hsp (split_dots_ne_nil s)
    | cons k rest =>
      rw [hsp] at hfp huq
      have := get_path_mk_val (fun k => some k) rest k (build_tree l) m s hfp hch hlv huq
      simpa using this

theorem claim_C4_witness :
    construct_node (fun k => some k) (build_tree ["A.B"]) =
        .ok (mk_val (fun k => some k) (build_tree ["A.B"])) ∧
      get_path (mk_val (fun k => some k) (build_tree ["A.B"]))
        ((split_dots ("A.B")).map to_snake_case) = some (.str ("A.B")) :=
  claim_C4_round_trip ["A.B"] ("A.B") (Node.mk [] (some ("A.B")))
    (by decide) rfl rfl rfl

/-! ## Emitted struct naming lemmas -/

/-- The declaration the emitter produces for the node `c` under type name
`name`. -/
def node_decl (name : String) (c : Node) : StructDecl :=
  { name := name
    fields := generate_struct_fields c name
    inits := generate_field_inits c name }

theorem decl_mem_structs_list (cs : List (String × Node)) (sn k : String) (c : Node)
    (hfc : find_child cs k = some c) (hcond : c.leaf_var = none ∨ c.children ≠ []) :
    node_decl (sn ++ to_pascal_case k) c ∈ structs_list cs sn := by
  induction cs with
  | nil => simp [find_child] at hfc
  | cons hd t ih =>
    obtain ⟨k', c'⟩ := hd
    by_cases hk : k' = k
    · subst hk
      obtain rfl : c' = c := by simpa [find_child] using hfc
      simp only [structs_list]
      obtain ⟨ccs, clv⟩ := c'
      cases clv with
      | none =>
        apply List.mem_append_left
        apply List.mem_append_right
        simp [node_decl]
      | some v =>
        cases ccs with
        | nil =>
          rcases hcond with h | h
          · simp at h
          · simp at h
        | cons c2 cst =>
          apply List.mem_append_left
          apply List.mem_append_right
          simp [node_decl]
    · simp only [find_child, if_neg hk] at hfc
      simp only [structs_list]
      exact List.mem_append_right _ (ih hfc)

theorem structs_list_sub (cs : List (String × Node)) (sn k : String) (c : Node)
    (hfc : find_child cs k = some c) (d : StructDecl)
    (hd : d ∈ generate_structs c (sn ++ to_pascal_case k)) : d ∈ structs_list cs sn := by
  induction cs with
  | nil => simp [find_child] at hfc
  | cons hd' t ih =>
    obtain ⟨k', c'⟩ := hd'
    by_cases hk : k' = k
    · subst hk
      obtain rfl : c' = c := by simpa [find_child] using hfc
      simp only [structs_list]
      obtain ⟨ccs, clv⟩ := c'
      cases clv with
      | none =>
        apply List.mem_append_left
        exact List.mem_append_left _ hd
      | some v =>
        cases ccs with
        | nil =>
          simp only [generate_structs, Node.children_mk, structs_list] at hd
          exact absurd hd (List.not_mem_nil d)
        | cons c2 cst =>
          apply List.mem_append_left
          exact List.mem_append_left _ hd
    · simp only [find_child, if_neg hk] at hfc
      simp only [structs_list]
      exact List.mem_append_right _ (ih hfc)

theorem decl_of_path : ∀ (q : List String) (k : String) (t m : Node) (base : String),
    find_path t (q ++ [k]) = some m → m.children ≠ [] →
    node_decl (struct_name_at base (q ++ [k])) m ∈ generate_structs t base := by
  intro q
  induction q with
  | nil =>
    intro k t m base hfp hch
    simp only [List.nil_append] at hfp ⊢
    obtain ⟨cs, lv⟩ := t
    rw [find_path_cons] at hfp
    simp only [Node.children_mk] at hfp
    cases hfc : find_child cs k with
    | none => simp [hfc] at hfp
    | some c =>
      simp only [hfc] at hfp
      obtain rfl : c = m := by simpa [find_path] using hfp
      have hname : struct_name_at base [k] = base ++ to_pascal_case k := by
        simp [struct_name_at]
      rw [hname]
      exact decl_mem_structs_list cs base k c hfc (Or.inr hch)
  | cons y q' ih =>
    intro k t m base hfp hch
    obtain ⟨cs, lv⟩ := t
    rw [List.cons_append, find_path_cons] at hfp
    simp only [Node.children_mk] at hfp
    cases hfc : find_child cs y with
    | none => simp [hfc] at hfp
    | some c =>
      simp only [hfc] at hfp
      have hmem := ih k c m (base ++ to_pascal_case y) hfp hch
      have hname : struct_name_at base (y :: (q' ++ [k])) =
          struct_name_at (base ++ to_pascal_case y) (q' ++ [k]) := by
        simp [struct_name_at]
      rw [List.cons_append, hname]
      exact structs_list_sub cs base y c hfc _ hmem

/-- C8: For every node with children reached by a non-empty raw-segment
address, the emitter produces a declaration whose type name is the fold of
the Pascal fragments of the address's segments onto the fixed root name
`Vars`; equivalently, the name is the parent record's name concatenated with
the fragment of the node's own segment, recursively from `Vars`. -/
theorem claim_C8_type_names (t : Node) (segs : List String) (k : String) (m : Node)
    (hfp : find_path t (segs ++ [k]) = some m) (hch : m.children ≠ []) :
    node_decl (struct_name_at ROOT_STRUCT_NAME (segs ++ [k])) m ∈ emit_all t ∧
    struct_name_at ROOT_STRUCT_NAME (segs ++ [k]) =
      struct_name_at ROOT_STRUCT_NAME segs ++ to_pascal_case k ∧
    struct_name_at ROOT_STRUCT_NAME ([] : List String) = ROOT_STRUCT_NAME ∧
    (node_decl (struct_name_at ROOT_STRUCT_NAME (segs ++ [k])) m).fields =
      generate_struct_fields m (struct_name_at ROOT_STRUCT_NAME (segs ++ [k])) := by
  refine ⟨?_, ?_, rfl, rfl⟩
  · exact List.mem_append_left _ (decl_of_path segs k t m ROOT_STRUCT_NAME hfp hch)
  · simp [struct_name_at, List.foldl_append]

theorem claim_C8_witness :
    node_decl (struct_name_at ROOT_STRUCT_NAME (["A"] ++ ["B"]))
        (Node.mk [(("C"), Node.mk [] (some ("A.B.C")))] none) ∈
      emit_all (build_tree ["A.B.C"]) ∧
    struct_name_at ROOT_STRUCT_NAME (["A"] ++ ["B"]) =
      struct_name_at ROOT_STRUCT_NAME ["A"] ++ to_pascal_case ("B") := by
  have h := claim_C8_type_names (build_tree ["A.B.C"]) ["A"] ("B")
    (Node.mk [(("C"), Node.mk [] (some ("A.B.C")))] none) rfl (by simp)
  exact ⟨h.1, h.2.1⟩
